import Mathlib

/-!
Verification of the drawable transform hierarchy and angle animation channel
of the MachineLibrary / CanadianExperience core.

The repository ships the header `CanadianExperienceLib/Drawable.h`.  Member
functions implemented inline in that header (`SetParent`, `SetPosition`,
`SetRotation`, accessors) and the field initializers
(`mPosition = wxPoint(0, 0)`, `mRotation = 0`, `mPlacedPosition = wxPoint(0,0)`,
`mPlacedR = 0`) are embedded directly from the source.  The bodies of
`Place`, `AddChild`, `Move`, `RotatePoint` and the whole of
`AnimChannelAngle` are not part of the sources, so those operations are
modelled from the specification text, as noted on each definition.
-/

open Real

/-- An angle keyframe: a `(time, angle)` sample.  Times and angles are
numeric (double in the source header); we embed them as rationals so that
the channel bookkeeping is fully executable, while evaluation produces a
real angle. -/
structure AngleKeyframe where
  time : ℚ
  angle : ℚ
deriving DecidableEq, Repr

/-- Modelled from the spec: `SetKeyFrame(time, angle)` "inserts a new sample
or overwrites the sample at an existing time (exact time match)" and
"maintains sorted-by-time invariant".  Sorted insertion into the keyframe
list, overwriting on an exact time match. -/
def setKeyFrame : List AngleKeyframe → AngleKeyframe → List AngleKeyframe
  | [], k => [k]
  | h :: t, k =>
    if k.time < h.time then k :: h :: t
    else if k.time = h.time then k :: t
    else h :: setKeyFrame t k

/-- Insert a whole list of keyframes, in order, into an initially empty
channel: the state built by repeated `SetKeyFrame` calls. -/
def setAll (ks : List AngleKeyframe) : List AngleKeyframe :=
  ks.foldl setKeyFrame []

/-- Modelled from the spec: the "shortest signed angular delta" between two
angles.  `wrapAngle d` is `d` reduced by a multiple of `2π` to the
half-open interval `[-π, π)`, so its magnitude never exceeds `π`. -/
noncomputable def wrapAngle (d : ℝ) : ℝ :=
  d - 2 * π * (round (d / (2 * π)) : ℤ)

/-- Modelled from the spec: evaluation of `AnimChannelAngle` at a query
time (§4.2).  No keyframes: default angle 0.  One keyframe: its angle,
constant.  Query at or before the first keyframe: first angle.  Query at or
after the last: last angle.  Strictly between adjacent keyframes `A`, `B`:
normalized fraction `f = (t − tA)/(tB − tA)` clamped to `[0,1]`, applied to
the shortest signed angular delta from `αA` to `αB`. -/
noncomputable def evalChannel : List AngleKeyframe → ℚ → ℝ
  | [], _ => 0
  | [k], _ => (k.angle : ℝ)
  | k1 :: k2 :: rest, t =>
    if t ≤ k1.time then (k1.angle : ℝ)
    else if t < k2.time then
      (k1.angle : ℝ) +
        (min 1 (max 0 (((t - k1.time) / (k2.time - k1.time) : ℚ))) : ℝ) *
          wrapAngle ((k2.angle : ℝ) - (k1.angle : ℝ))
    else evalChannel (k2 :: rest) t

/-- Modelled from the spec: `RotatePoint(point, angle)` rotates a 2D vector
by `angle` radians about the origin with the standard rotation matrix,
`x' = x·cos a − y·sin a`, `y' = x·sin a + y·cos a`; the spec requires the
math to be exact, so the point is embedded with real coordinates. -/
noncomputable def RotatePoint (p : ℝ × ℝ) (a : ℝ) : ℝ × ℝ :=
  (p.1 * Real.cos a - p.2 * Real.sin a, p.1 * Real.sin a + p.2 * Real.cos a)

/-- A drawable part as a tree: local position and rotation relative to the
parent, and the owned children, mirroring `mPosition`, `mRotation`,
`mChildren` of `Drawable.h`. -/
inductive DrawTree where
  | node (position : ℝ × ℝ) (rotation : ℝ) (children : List DrawTree)

/-- Local position of the root of a tree. -/
def DrawTree.position : DrawTree → ℝ × ℝ
  | .node p _ _ => p

/-- Local rotation of the root of a tree. -/
def DrawTree.rotation : DrawTree → ℝ
  | .node _ r _ => r

/-- Children of the root of a tree. -/
def DrawTree.children : DrawTree → List DrawTree
  | .node _ _ cs => cs

/-- A drawable tree after a placement pass: each node additionally carries
its computed `mPlacedPosition` and `mPlacedR`. -/
inductive PlacedTree where
  | node (position : ℝ × ℝ) (rotation : ℝ) (placedPosition : ℝ × ℝ)
      (placedRotation : ℝ) (children : List PlacedTree)

/-- Placed (absolute) position at the root. -/
def PlacedTree.placedPosition : PlacedTree → ℝ × ℝ
  | .node _ _ pp _ _ => pp

/-- Placed (absolute) rotation at the root. -/
def PlacedTree.placedRotation : PlacedTree → ℝ
  | .node _ _ _ pr _ => pr

/-- Children of the root of a placed tree. -/
def PlacedTree.children : PlacedTree → List PlacedTree
  | .node _ _ _ _ cs => cs

/-- The per-object state of a `Drawable`, mirroring the fields of
`Drawable.h`: `mName`, `mPosition`, `mRotation`, `mActor`, `mParent`,
`mChildren`, `mChannel`, `mPlacedPosition`, `mPlacedR`.  Actor, parent and
children are identities of other objects (pointers in the source). -/
structure Drawable where
  name : String
  position : ℝ × ℝ
  rotation : ℝ
  actor : Option Nat
  parent : Option Nat
  children : List Nat
  channel : List AngleKeyframe
  placedPosition : ℝ × ℝ
  placedR : ℝ

/-- Construction of a drawable with a name: the in-class member
initializers of `Drawable.h` give `mPosition = wxPoint(0, 0)`,
`mRotation = 0`, `mActor = nullptr`, `mParent = nullptr`, empty `mChildren`,
a default (empty) channel, `mPlacedPosition = wxPoint(0, 0)` and
`mPlacedR = 0`. -/
def mkDrawable (name : String) : Drawable :=
  { name := name, position := (0, 0), rotation := 0, actor := none,
    parent := none, children := [], channel := [],
    placedPosition := (0, 0), placedR := 0 }

/-- Modelled from the spec: `Move(delta)` "translates local `position` by
`delta`"; no other field is touched. -/
def Drawable.move (d : Drawable) (delta : ℝ × ℝ) : Drawable :=
  { d with position := d.position + delta }

/-- The pointer structure of a scene: for each object identity, its parent
back-reference (`mParent`, null allowed) and its children sequence
(`mChildren`), the two fields of `Drawable.h` that cross-reference other
drawables. -/
structure World (α : Type) where
  parent : α → Option α
  children : α → List α

/-- Modelled from the spec: `AddChild(child)` "appends `child` to the
children sequence and sets `child.parent = this`", acting on the pointer
structure of the scene: the receiver is `d`, the argument is `c`. -/
def addChild {α : Type} [DecidableEq α] (w : World α) (d c : α) : World α :=
  { parent := fun x => if x = c then some d else w.parent x,
    children := fun x => if x = d then w.children x ++ [c] else w.children x }

/-- `SetParent(parent)` from `Drawable.h` (inline in the source header):
`mParent = parent;` — only the receiver's parent back-reference changes. -/
def setParent {α : Type} [DecidableEq α] (w : World α) (d : α) (p : Option α) :
    World α :=
  { w with parent := fun x => if x = d then p else w.parent x }

/-- Following the parent back-reference `k` times from `x`:
`parentIter w 0 x = some x`, and each further step moves to the parent,
returning `none` once an object with no parent is reached. -/
def parentIter {α : Type} (w : World α) : Nat → α → Option α
  | 0, x => some x
  | k + 1, x =>
    match w.parent x with
    | none => none
    | some y => parentIter w k y

/-- `a` is a proper ancestor of `d`: some positive number of parent steps
from `d` reaches `a`. -/
def isAncestor {α : Type} (w : World α) (a d : α) : Prop :=
  ∃ k : Nat, parentIter w (k + 1) d = some a

/-- The parent structure is acyclic: no object is reached from itself by a
positive number of parent steps. -/
def Acyclic {α : Type} (w : World α) : Prop :=
  ∀ (x : α) (k : Nat), parentIter w (k + 1) x ≠ some x

/-- Modelled from the spec: `AddChild` "must guard against inserting an
ancestor as its own descendant (undefined/rejected)"; with the guard, an
attempt to add the receiver itself or one of its ancestors as a child is
rejected and leaves the scene unchanged. -/
noncomputable def addChildGuarded {α : Type} [DecidableEq α] (w : World α)
    (d c : α) : World α :=
  haveI : Decidable (c = d ∨ isAncestor w c d) := Classical.dec _
  if c = d ∨ isAncestor w c d then w else addChild w d c

mutual
/-- Modelled from the spec: `Place(offset, rotate)` computes
`placedPosition = offset + RotatePoint(position, rotate)` and
`placedRotation = rotate + rotation`, then recursively places each child
using this drawable's new placement as the ancestor context. -/
noncomputable def placeTree : DrawTree → ℝ × ℝ → ℝ → PlacedTree
  | DrawTree.node pos rot cs, offset, rotate =>
    PlacedTree.node pos rot (offset + RotatePoint pos rotate) (rotate + rot)
      (placeList cs (offset + RotatePoint pos rotate) (rotate + rot))

/-- Placement of a list of sibling drawables under a common ancestor
context. -/
noncomputable def placeList : List DrawTree → ℝ × ℝ → ℝ → List PlacedTree
  | [], _, _ => []
  | c :: cs, offset, rotate => placeTree c offset rotate :: placeList cs offset rotate
end

/-- Placing a list of siblings is placing each of them under the same
ancestor context. -/
theorem placeList_eq_map (cs : List DrawTree) (o : ℝ × ℝ) (r : ℝ) :
    placeList cs o r = cs.map (fun c => placeTree c o r) := by
  induction cs with
  | nil => simp [placeList]
  | cons c cs ih => simp [placeList, ih]

/-- The placed rotation produced by a placement pass is the ancestor
rotation plus the local rotation. -/
theorem placeTree_placedRotation (t : DrawTree) (o : ℝ × ℝ) (r : ℝ) :
    (placeTree t o r).placedRotation = r + t.rotation := by
  cases t
  simp [placeTree, PlacedTree.placedRotation, DrawTree.rotation]

/-- The placed position produced by a placement pass is the ancestor offset
plus the local position rotated by the ancestor rotation. -/
theorem placeTree_placedPosition (t : DrawTree) (o : ℝ × ℝ) (r : ℝ) :
    (placeTree t o r).placedPosition = o + RotatePoint t.position r := by
  cases t
  simp [placeTree, PlacedTree.placedPosition, DrawTree.position]

/-- C5: `RotatePoint` applies the exact rotation-matrix formulas
`x' = x·cos a − y·sin a`, `y' = x·sin a + y·cos a`, and rotating by `a` and
then by `−a` returns the original point exactly. -/
theorem rotatePoint_matrix_roundtrip :
    (∀ (p : ℝ × ℝ) (a : ℝ),
      RotatePoint p a =
        (p.1 * Real.cos a - p.2 * Real.sin a, p.1 * Real.sin a + p.2 * Real.cos a)) ∧
    (∀ (p : ℝ × ℝ) (a : ℝ), RotatePoint (RotatePoint p a) (-a) = p) := by
  constructor
  · intro p a
    rfl
  · intro p a
    have h := Real.sin_sq_add_cos_sq a
    obtain ⟨x, y⟩ := p
    simp only [RotatePoint, Real.cos_neg, Real.sin_neg, Prod.mk.injEq]
    constructor
    · linear_combination x * h
    · linear_combination y * h

/-- C8: a freshly constructed drawable carries the zero-initialized placed
transform: placed position `(0, 0)` and placed rotation `0`, exactly the
member initializers of `mPlacedPosition` and `mPlacedR` in `Drawable.h`. -/
theorem fresh_drawable_placed_zero (name : String) :
    (mkDrawable name).placedPosition = (0, 0) ∧ (mkDrawable name).placedR = 0 :=
  ⟨rfl, rfl⟩

/-- C9: `Move(delta)` translates the local position by exactly `delta` and
leaves every other field of the drawable unchanged: rotation, placed
position, placed rotation, name, actor, parent, children and the angle
channel. -/
theorem move_translates_position_only (d : Drawable) (delta : ℝ × ℝ) :
    (d.move delta).position = d.position + delta ∧
    (d.move delta).rotation = d.rotation ∧
    (d.move delta).placedPosition = d.placedPosition ∧
    (d.move delta).placedR = d.placedR ∧
    (d.move delta).name = d.name ∧
    (d.move delta).actor = d.actor ∧
    (d.move delta).parent = d.parent ∧
    (d.move delta).children = d.children ∧
    (d.move delta).channel = d.channel :=
  ⟨rfl, rfl, rfl, rfl, rfl, rfl, rfl, rfl, rfl⟩

/-- C6: `AddChild(c)` on `d` appends `c` to `d`'s children sequence and
sets `c`'s parent back-reference to `d`; afterwards `c`'s parent is `d` and
`c` is a member of `d`'s children, so the two sides of the
parent/children-membership invariant hold together for this pair. -/
theorem addChild_appends_sets_parent {α : Type} [DecidableEq α]
    (w : World α) (d c : α) :
    (addChild w d c).children d = w.children d ++ [c] ∧
    (addChild w d c).parent c = some d ∧
    ((addChild w d c).parent c = some d ↔ c ∈ (addChild w d c).children d) := by
  refine ⟨by simp [addChild], by simp [addChild], ?_⟩
  simp [addChild]

/-- C10: the public `SetParent(p)` (inline in `Drawable.h` as
`mParent = parent;`) only updates the receiver's parent back-reference: the
children map of the scene is untouched, every other object's parent is
untouched, and in particular the receiver is not inserted into the new
parent's children sequence, so `SetParent` alone does not establish the
parent/children-membership consistency. -/
theorem setParent_only_backreference {α : Type} [DecidableEq α]
    (w : World α) (c : α) (p : Option α) :
    (setParent w c p).children = w.children ∧
    (setParent w c p).parent c = p ∧
    (∀ x : α, x ≠ c → (setParent w c p).parent x = w.parent x) ∧
    (∀ q : α, c ∉ w.children q → c ∉ (setParent w c p).children q) := by
  refine ⟨rfl, by simp [setParent], ?_, ?_⟩
  · intro x hx
    simp [setParent, hx]
  · intro q hq
    exact hq

/-- Witness for C10 at a concrete two-object scene. -/
theorem setParent_only_backreference_witness :
    (setParent (⟨fun _ => none, fun _ => []⟩ : World ℕ) 0 (some 1)).parent 0 = some 1 ∧
    (setParent (⟨fun _ => none, fun _ => []⟩ : World ℕ) 0 (some 1)).parent 2 = none ∧
    0 ∉ (setParent (⟨fun _ => none, fun _ => []⟩ : World ℕ) 0 (some 1)).children 1 :=
  ⟨(setParent_only_backreference (⟨fun _ => none, fun _ => []⟩ : World ℕ) 0 (some 1)).2.1,
   (setParent_only_backreference (⟨fun _ => none, fun _ => []⟩ : World ℕ) 0 (some 1)).2.2.1 2 (by decide),
   (setParent_only_backreference (⟨fun _ => none, fun _ => []⟩ : World ℕ) 0 (some 1)).2.2.2 1 (by simp)⟩

/-- C1: a placement pass computes
`placedPosition = offset + RotatePoint(position, rotate)` and
`placedRotation = rotate + rotation`, and every child is placed with this
drawable's new placement as ancestor context, so each placed child
satisfies `child.placedRotation = parent.placedRotation + child.rotation`
and `child.placedPosition = parent.placedPosition +
RotatePoint(child.position, parent.placedRotation)`. -/
theorem place_composes_parent_child (pos : ℝ × ℝ) (rot : ℝ) (cs : List DrawTree)
    (offset : ℝ × ℝ) (rotate : ℝ) :
    (placeTree (DrawTree.node pos rot cs) offset rotate).placedPosition =
      offset + RotatePoint pos rotate ∧
    (placeTree (DrawTree.node pos rot cs) offset rotate).placedRotation =
      rotate + rot ∧
    ∀ c ∈ cs,
      placeTree c (offset + RotatePoint pos rotate) (rotate + rot) ∈
        (placeTree (DrawTree.node pos rot cs) offset rotate).children ∧
      (placeTree c (offset + RotatePoint pos rotate) (rotate + rot)).placedRotation =
        (rotate + rot) + c.rotation ∧
      (placeTree c (offset + RotatePoint pos rotate) (rotate + rot)).placedPosition =
        (offset + RotatePoint pos rotate) + RotatePoint c.position (rotate + rot) := by
  refine ⟨rfl, rfl, ?_⟩
  intro c hc
  refine ⟨?_, placeTree_placedRotation c _ _, placeTree_placedPosition c _ _⟩
  have : (placeTree (DrawTree.node pos rot cs) offset rotate).children =
      placeList cs (offset + RotatePoint pos rotate) (rotate + rot) := rfl
  rw [this, placeList_eq_map]
  exact List.mem_map_of_mem _ hc

/-- Witness for C1 at a concrete two-level tree. -/
theorem place_composes_parent_child_witness :
    (placeTree (DrawTree.node ((1 : ℝ), (2 : ℝ)) (1/2)
        [DrawTree.node ((3 : ℝ), (4 : ℝ)) 1 []]) ((0 : ℝ), (0 : ℝ)) 0).placedRotation =
      0 + 1/2 ∧
    (placeTree (DrawTree.node ((3 : ℝ), (4 : ℝ)) 1 [])
        (((0 : ℝ), (0 : ℝ)) + RotatePoint ((1 : ℝ), (2 : ℝ)) 0) (0 + 1/2)).placedRotation =
      (0 + 1/2) + (DrawTree.node ((3 : ℝ), (4 : ℝ)) 1 []).rotation :=
  ⟨(place_composes_parent_child ((1 : ℝ), (2 : ℝ)) (1/2)
      [DrawTree.node ((3 : ℝ), (4 : ℝ)) 1 []] ((0 : ℝ), (0 : ℝ)) 0).2.1,
   ((place_composes_parent_child ((1 : ℝ), (2 : ℝ)) (1/2)
      [DrawTree.node ((3 : ℝ), (4 : ℝ)) 1 []] ((0 : ℝ), (0 : ℝ)) 0).2.2
      (DrawTree.node ((3 : ℝ), (4 : ℝ)) 1 []) (by simp)).2.1⟩

/-- The ordering of keyframes maintained by the channel: strictly
increasing time. -/
def kfBefore (a b : AngleKeyframe) : Prop := a.time < b.time

instance : DecidableRel kfBefore :=
  fun a b => inferInstanceAs (Decidable (a.time < b.time))

instance : IsAntisymm AngleKeyframe kfBefore :=
  ⟨fun _ _ h1 h2 => absurd h2 (lt_asymm h1)⟩

instance : IsTrans AngleKeyframe kfBefore :=
  ⟨fun _ _ _ h1 h2 => lt_trans h1 h2⟩

/-- In a sorted keyframe list, the head's time is at most the last time. -/
theorem sorted_head_time_le_getLast (k : AngleKeyframe) (l : List AngleKeyframe)
    (hs : List.Sorted kfBefore (k :: l)) :
    k.time ≤ ((k :: l).getLast (List.cons_ne_nil k l)).time := by
  induction l generalizing k with
  | nil => simp [List.getLast]
  | cons k2 rest ih =>
    have h12 : k.time < k2.time := (List.sorted_cons.mp hs).1 k2 (by simp)
    have hs2 : List.Sorted kfBefore (k2 :: rest) := (List.sorted_cons.mp hs).2
    have hlast : ((k :: k2 :: rest).getLast (List.cons_ne_nil k (k2 :: rest))) =
        ((k2 :: rest).getLast (List.cons_ne_nil k2 rest)) :=
      List.getLast_cons (List.cons_ne_nil k2 rest)
    rw [hlast]
    exact le_trans (le_of_lt h12) (ih k2 hs2)

/-- Evaluating a sorted channel at or after the last keyframe's time gives
the last keyframe's angle. -/
theorem evalChannel_last (t : ℚ) (ks : List AngleKeyframe) (h : ks ≠ [])
    (hs : List.Sorted kfBefore ks) (ht : (ks.getLast h).time ≤ t) :
    evalChannel ks t = ((ks.getLast h).angle : ℝ) := by
  induction ks with
  | nil => exact absurd rfl h
  | cons k1 tl ih =>
    cases tl with
    | nil => simp [evalChannel, List.getLast]
    | cons k2 rest =>
      have hlast : ((k1 :: k2 :: rest).getLast h) =
          ((k2 :: rest).getLast (List.cons_ne_nil k2 rest)) :=
        List.getLast_cons (List.cons_ne_nil k2 rest)
      have hs2 : List.Sorted kfBefore (k2 :: rest) := (List.sorted_cons.mp hs).2
      have h12 : k1.time < k2.time := (List.sorted_cons.mp hs).1 k2 (by simp)
      have h2last : k2.time ≤ ((k2 :: rest).getLast (List.cons_ne_nil k2 rest)).time :=
        sorted_head_time_le_getLast k2 rest hs2
      rw [hlast] at ht ⊢
      have hn1 : ¬ t ≤ k1.time := not_le.mpr (lt_of_lt_of_le h12 (le_trans h2last ht))
      have hn2 : ¬ t < k2.time := not_lt.mpr (le_trans h2last ht)
      rw [evalChannel, if_neg hn1, if_neg hn2]
      exact ih (List.cons_ne_nil k2 rest) hs2 ht

/-- C2: boundary policy of the angle channel.  With no keyframes the
evaluation is the default angle 0 at every time; with exactly one keyframe
it is that keyframe's angle at every time (negative times included); at or
before the first keyframe's time it is the first keyframe's angle; at or
after the last keyframe's time (for a channel kept sorted) it is the last
keyframe's angle. -/
theorem channel_boundary_policy :
    (∀ t : ℚ, evalChannel [] t = 0) ∧
    (∀ (k : AngleKeyframe) (t : ℚ), evalChannel [k] t = (k.angle : ℝ)) ∧
    (∀ (k : AngleKeyframe) (rest : List AngleKeyframe) (t : ℚ), t ≤ k.time →
      evalChannel (k :: rest) t = (k.angle : ℝ)) ∧
    (∀ (ks : List AngleKeyframe) (t : ℚ) (h : ks ≠ []),
      List.Sorted kfBefore ks → (ks.getLast h).time ≤ t →
      evalChannel ks t = ((ks.getLast h).angle : ℝ)) := by
  refine ⟨fun t => rfl, fun k t => rfl, ?_, fun ks t h hs ht => evalChannel_last t ks h hs ht⟩
  intro k rest t ht
  cases rest with
  | nil => rfl
  | cons k2 rest2 => rw [evalChannel, if_pos ht]

/-- Witness for C2 at concrete channels and query times. -/
theorem channel_boundary_policy_witness :
    evalChannel [] 7 = 0 ∧
    evalChannel [⟨2, 1⟩] (-5) = 1 ∧
    evalChannel [⟨1, 2⟩, ⟨3, 4⟩] 0 = 2 ∧
    evalChannel [⟨1, 2⟩, ⟨3, 4⟩] 5 = 4 :=
  ⟨channel_boundary_policy.1 7,
   (channel_boundary_policy.2.1 ⟨2, 1⟩ (-5)).trans (by norm_num),
   ((channel_boundary_policy.2.2.1 ⟨1, 2⟩ [⟨3, 4⟩] 0) (by norm_num)).trans (by norm_num),
   ((channel_boundary_policy.2.2.2 [⟨1, 2⟩, ⟨3, 4⟩] 5 (by simp)
      (by simp [List.sorted_cons, kfBefore]) (by norm_num [List.getLast])).trans
     (by norm_num [List.getLast]))⟩

/-- The wrapped delta factored through the rounding quotient. -/
theorem wrapAngle_factor (d : ℝ) :
    wrapAngle d = 2 * π * (d / (2 * π) - ((round (d / (2 * π)) : ℤ) : ℝ)) := by
  have h2π : (2 : ℝ) * π ≠ 0 := by positivity
  unfold wrapAngle
  field_simp

/-- The shortest signed angular delta never exceeds `π` in magnitude. -/
theorem abs_wrapAngle_le_pi (d : ℝ) : |wrapAngle d| ≤ π := by
  have h2π : (0 : ℝ) < 2 * π := by positivity
  have hr : |d / (2 * π) - ((round (d / (2 * π)) : ℤ) : ℝ)| ≤ 1 / 2 :=
    abs_sub_round (d / (2 * π))
  rw [wrapAngle_factor, abs_mul, abs_of_pos h2π]
  nlinarith [hr, Real.pi_pos]

/-- The wrapped delta differs from the raw delta by a whole number of
turns. -/
theorem wrapAngle_eq_sub_turns (d : ℝ) : ∃ k : ℤ, wrapAngle d = d - 2 * π * k :=
  ⟨round (d / (2 * π)), rfl⟩

/-- Evaluation strictly between the two keyframes of a two-keyframe
channel: the first angle plus the normalized fraction times the shortest
signed delta. -/
theorem evalChannel_pair (tA tB αA αB t : ℚ) (h1 : tA < t) (h2 : t < tB) :
    evalChannel [⟨tA, αA⟩, ⟨tB, αB⟩] t =
      (αA : ℝ) + (((t - tA) / (tB - tA) : ℚ) : ℝ) * wrapAngle ((αB : ℝ) - (αA : ℝ)) := by
  have hAB : tA < tB := lt_trans h1 h2
  have hf0 : (0 : ℚ) ≤ (t - tA) / (tB - tA) :=
    le_of_lt (div_pos (sub_pos.mpr h1) (sub_pos.mpr hAB))
  have hf1 : (t - tA) / (tB - tA) ≤ 1 :=
    (div_le_one (sub_pos.mpr hAB)).mpr (by linarith)
  have hf0R : (0 : ℝ) ≤ (((t - tA) / (tB - tA) : ℚ) : ℝ) := by exact_mod_cast hf0
  have hf1R : (((t - tA) / (tB - tA) : ℚ) : ℝ) ≤ 1 := by exact_mod_cast hf1
  simp only [evalChannel]
  rw [if_neg (not_le.mpr h1), if_pos h2, max_eq_right hf0R, min_eq_right hf1R]

/-- The seam example: keyframes `(0, 3)` and `(1, −3)` interpolated at
`t = 1/2` give exactly `π` — the short way around the circle. -/
theorem evalChannel_seam : evalChannel [⟨0, 3⟩, ⟨1, -3⟩] (1/2) = π := by
  have h := evalChannel_pair 0 1 3 (-3) (1/2) (by norm_num) (by norm_num)
  have h2π : (0 : ℝ) < 2 * π := by positivity
  have hr : round ((-6 : ℝ) / (2 * π)) = -1 := by
    rw [round_eq, Int.floor_eq_iff]
    constructor
    · have hA : (-3/2 : ℝ) ≤ -6 / (2 * π) := by
        rw [le_div_iff₀ h2π]
        nlinarith [Real.pi_gt_three]
      push_cast
      linarith
    · have hB : (-6 : ℝ) / (2 * π) < -1/2 := by
        rw [div_lt_iff₀ h2π]
        nlinarith [Real.pi_lt_d2]
      push_cast
      linarith
  have hw : wrapAngle (-6) = 2 * π - 6 := by
    unfold wrapAngle
    rw [show ((-6 : ℝ)) / (2 * π) = (-6 : ℝ) / (2 * π) from rfl, hr]
    push_cast
    ring
  rw [h]
  norm_num
  rw [hw]
  ring

/-- C3: the channel interpolates along the shortest signed angular delta —
the wrapped delta has magnitude at most `π` and differs from the raw delta
by whole turns, strict-interior evaluation applies the normalized fraction
to that wrapped delta, and in particular the seam channel with keyframes
`(0, 3)` and `(1, −3)` evaluates at `t = 1/2` to exactly `π` — magnitude
above 3, not near 0. -/
theorem channel_shortest_path :
    (∀ d : ℝ, |wrapAngle d| ≤ π ∧ ∃ k : ℤ, wrapAngle d = d - 2 * π * k) ∧
    (∀ tA tB αA αB t : ℚ, tA < t → t < tB →
      evalChannel [⟨tA, αA⟩, ⟨tB, αB⟩] t =
        (αA : ℝ) + (((t - tA) / (tB - tA) : ℚ) : ℝ) * wrapAngle ((αB : ℝ) - (αA : ℝ))) ∧
    evalChannel [⟨0, 3⟩, ⟨1, -3⟩] (1/2) = π ∧
    3 < |evalChannel [⟨0, 3⟩, ⟨1, -3⟩] (1/2)| := by
  refine ⟨fun d => ⟨abs_wrapAngle_le_pi d, wrapAngle_eq_sub_turns d⟩,
    fun tA tB αA αB t h1 h2 => evalChannel_pair tA tB αA αB t h1 h2,
    evalChannel_seam, ?_⟩
  rw [evalChannel_seam, abs_of_pos Real.pi_pos]
  exact Real.pi_gt_three

/-- Witness for C3: the wrap bound at delta 0 and the interior formula at
the concrete seam bracket. -/
theorem channel_shortest_path_witness :
    |wrapAngle 0| ≤ π ∧
    evalChannel [⟨0, 3⟩, ⟨1, -3⟩] (1/2) =
      ((3 : ℚ) : ℝ) + ((((1:ℚ)/2 - 0) / (1 - 0) : ℚ) : ℝ) *
        wrapAngle (((-3 : ℚ) : ℝ) - ((3 : ℚ) : ℝ)) :=
  ⟨(channel_shortest_path.1 0).1,
   channel_shortest_path.2.1 0 1 3 (-3) (1/2) (by norm_num) (by norm_num)⟩

/-- Every member of the channel after a `SetKeyFrame` is the inserted
keyframe or one of the previous members. -/
theorem mem_setKeyFrame {l : List AngleKeyframe} {k x : AngleKeyframe}
    (hx : x ∈ setKeyFrame l k) : x = k ∨ x ∈ l := by
  induction l with
  | nil =>
    simp only [setKeyFrame, List.mem_singleton] at hx
    exact Or.inl hx
  | cons h t ih =>
    by_cases h1 : k.time < h.time
    · simp only [setKeyFrame, if_pos h1, List.mem_cons] at hx
      rcases hx with rfl | rfl | hx'
      · exact Or.inl rfl
      · exact Or.inr (by simp)
      · exact Or.inr (List.mem_cons_of_mem h hx')
    · by_cases h2 : k.time = h.time
      · simp only [setKeyFrame, if_neg h1, if_pos h2, List.mem_cons] at hx
        rcases hx with rfl | hx'
        · exact Or.inl rfl
        · exact Or.inr (List.mem_cons_of_mem h hx')
      · simp only [setKeyFrame, if_neg h1, if_neg h2, List.mem_cons] at hx
        rcases hx with rfl | hx'
        · exact Or.inr (by simp)
        · rcases ih hx' with rfl | hx''
          · exact Or.inl rfl
          · exact Or.inr (List.mem_cons_of_mem h hx'')

/-- `SetKeyFrame` keeps the channel sorted by strictly increasing time. -/
theorem sorted_setKeyFrame (k : AngleKeyframe) :
    ∀ l : List AngleKeyframe, List.Sorted kfBefore l →
      List.Sorted kfBefore (setKeyFrame l k) := by
  intro l
  induction l with
  | nil =>
    intro _
    simp [setKeyFrame]
  | cons h t ih =>
    intro hs
    rw [List.sorted_cons] at hs
    obtain ⟨hh, ht⟩ := hs
    by_cases h1 : k.time < h.time
    · simp only [setKeyFrame, if_pos h1]
      rw [List.sorted_cons]
      refine ⟨?_, ?_⟩
      · intro b hb
        rcases List.mem_cons.mp hb with rfl | hb'
        · exact h1
        · exact lt_trans h1 (hh b hb')
      · rw [List.sorted_cons]
        exact ⟨hh, ht⟩
    · by_cases h2 : k.time = h.time
      · simp only [setKeyFrame, if_neg h1, if_pos h2]
        rw [List.sorted_cons]
        refine ⟨?_, ht⟩
        intro b hb
        show k.time < b.time
        rw [h2]
        exact hh b hb
      · have h3 : h.time < k.time := lt_of_le_of_ne (not_lt.mp h1) (Ne.symm h2)
        simp only [setKeyFrame, if_neg h1, if_neg h2]
        rw [List.sorted_cons]
        refine ⟨?_, ih ht⟩
        intro b hb
        rcases mem_setKeyFrame hb with rfl | hb'
        · exact h3
        · exact hh b hb'

/-- Inserting a keyframe whose time is not yet present is, up to
permutation, consing it onto the channel. -/
theorem perm_setKeyFrame :
    ∀ (l : List AngleKeyframe) (k : AngleKeyframe),
      k.time ∉ l.map AngleKeyframe.time → (setKeyFrame l k).Perm (k :: l) := by
  intro l
  induction l with
  | nil =>
    intro k _
    simp [setKeyFrame]
  | cons h t ih =>
    intro k hk
    simp only [List.map_cons, List.mem_cons] at hk
    push_neg at hk
    by_cases h1 : k.time < h.time
    · simp only [setKeyFrame, if_pos h1]
      exact List.Perm.refl _
    · simp only [setKeyFrame, if_neg h1, if_neg hk.1]
      exact ((ih k hk.2).cons h).trans (List.Perm.swap k h t)

/-- Inserting a list of keyframes with pairwise-distinct times into an
accumulated channel yields, up to permutation, their concatenation. -/
theorem foldl_setKeyFrame_perm :
    ∀ (ks acc : List AngleKeyframe),
      ((acc ++ ks).map AngleKeyframe.time).Nodup →
      (List.foldl setKeyFrame acc ks).Perm (acc ++ ks) := by
  intro ks
  induction ks with
  | nil =>
    intro acc _
    simp
  | cons k ks ih =>
    intro acc hnd
    have hk : k.time ∉ acc.map AngleKeyframe.time := by
      intro hmem
      rw [List.map_append, List.nodup_append] at hnd
      exact hnd.2.2 hmem (by simp)
    have h1 : (setKeyFrame acc k).Perm (k :: acc) := perm_setKeyFrame acc k hk
    have hp : ((acc ++ k :: ks).map AngleKeyframe.time).Perm
        (((setKeyFrame acc k ++ ks)).map AngleKeyframe.time) :=
      List.Perm.map _ (List.perm_middle.trans ((h1.symm).append_right ks))
    have hnd2 : ((setKeyFrame acc k ++ ks).map AngleKeyframe.time).Nodup :=
      hp.nodup hnd
    exact (ih (setKeyFrame acc k) hnd2).trans
      ((h1.append_right ks).trans List.perm_middle.symm)

/-- The channel built by repeated `SetKeyFrame` calls is always sorted. -/
theorem setAll_sorted_aux :
    ∀ (ks acc : List AngleKeyframe), List.Sorted kfBefore acc →
      List.Sorted kfBefore (List.foldl setKeyFrame acc ks) := by
  intro ks
  induction ks with
  | nil =>
    intro acc h
    exact h
  | cons k ks ih =>
    intro acc h
    exact ih (setKeyFrame acc k) (sorted_setKeyFrame k acc h)

/-- C4: inserting a finite set of keyframes with distinct times via
`SetKeyFrame` in any order produces the identical channel — the sequence is
kept sorted — hence identical evaluation at every query time. -/
theorem setKeyFrame_order_independent (L1 L2 : List AngleKeyframe)
    (hperm : L1.Perm L2) (hnd : (L1.map AngleKeyframe.time).Nodup) :
    setAll L1 = setAll L2 ∧
    ∀ t : ℚ, evalChannel (setAll L1) t = evalChannel (setAll L2) t := by
  have hnd2 : (L2.map AngleKeyframe.time).Nodup := (hperm.map _).nodup hnd
  have h1 : (setAll L1).Perm L1 := by
    simpa [setAll] using foldl_setKeyFrame_perm L1 [] (by simpa using hnd)
  have h2 : (setAll L2).Perm L2 := by
    simpa [setAll] using foldl_setKeyFrame_perm L2 [] (by simpa using hnd2)
  have hs1 : List.Sorted kfBefore (setAll L1) :=
    setAll_sorted_aux L1 [] (by simp)
  have hs2 : List.Sorted kfBefore (setAll L2) :=
    setAll_sorted_aux L2 [] (by simp)
  have heq : setAll L1 = setAll L2 :=
    List.eq_of_perm_of_sorted (h1.trans (hperm.trans h2.symm)) hs1 hs2
  exact ⟨heq, fun t => by rw [heq]⟩

/-- Witness for C4: inserting at times 5, 1, 3 equals inserting at
times 1, 3, 5, and both evaluate equally at time 2. -/
theorem setKeyFrame_order_independent_witness :
    setAll [⟨5, 1⟩, ⟨1, 2⟩, ⟨3, 4⟩] = setAll [⟨1, 2⟩, ⟨3, 4⟩, ⟨5, 1⟩] ∧
    evalChannel (setAll [⟨5, 1⟩, ⟨1, 2⟩, ⟨3, 4⟩]) 2 =
      evalChannel (setAll [⟨1, 2⟩, ⟨3, 4⟩, ⟨5, 1⟩]) 2 :=
  ⟨(setKeyFrame_order_independent [⟨5, 1⟩, ⟨1, 2⟩, ⟨3, 4⟩]
      [⟨1, 2⟩, ⟨3, 4⟩, ⟨5, 1⟩] (by decide) (by decide)).1,
   (setKeyFrame_order_independent [⟨5, 1⟩, ⟨1, 2⟩, ⟨3, 4⟩]
      [⟨1, 2⟩, ⟨3, 4⟩, ⟨5, 1⟩] (by decide) (by decide)).2 2⟩

/-- Splitting a parent chain: following `a + b` steps is following `a`
steps and then `b` steps. -/
theorem parentIter_add {α : Type} (w : World α) :
    ∀ (a b : Nat) (x : α),
      parentIter w (a + b) x =
        (parentIter w a x).bind (fun y => parentIter w b y) := by
  intro a
  induction a with
  | zero =>
    intro b x
    simp [parentIter]
  | succ a ih =>
    intro b x
    have hab : a + 1 + b = (a + b) + 1 := by omega
    rw [hab]
    cases hp : w.parent x with
    | none => simp [parentIter, hp]
    | some y => simp [parentIter, hp, ih b y]

/-- A parent chain that never visits the re-parented child `c` before its
end is unchanged by `AddChild`. -/
theorem parentIter_addChild_of_avoid {α : Type} [DecidableEq α]
    (w : World α) (d c : α) :
    ∀ (m : Nat) (x : α),
      (∀ i, i < m → parentIter (addChild w d c) i x ≠ some c) →
      parentIter (addChild w d c) m x = parentIter w m x := by
  intro m
  induction m with
  | zero =>
    intro x _
    rfl
  | succ m ih =>
    intro x h
    have hx : x ≠ c := by
      intro hxc
      exact h 0 (Nat.succ_pos m) (by rw [hxc]; rfl)
    have hpar : (addChild w d c).parent x = w.parent x := by
      simp [addChild, hx]
    cases hp : w.parent x with
    | none => simp [parentIter, hpar, hp]
    | some y =>
      have hy : ∀ i, i < m → parentIter (addChild w d c) i y ≠ some c := by
        intro i hi hcy
        have hstep : parentIter (addChild w d c) (i + 1) x =
            parentIter (addChild w d c) i y := by
          simp [parentIter, hpar, hp]
        exact h (i + 1) (Nat.succ_lt_succ hi) (hstep.trans hcy)
      have h1 : parentIter (addChild w d c) (m + 1) x =
          parentIter (addChild w d c) m y := by
        simp [parentIter, hpar, hp]
      have h2 : parentIter w (m + 1) x = parentIter w m y := by
        simp [parentIter, hp]
      rw [h1, h2]
      exact ih y hy

/-- With the ancestor guard satisfied, `AddChild` preserves acyclicity of
the parent structure. -/
theorem acyclic_addChild {α : Type} [DecidableEq α] (w : World α) (d c : α)
    (hguard : ¬(c = d ∨ isAncestor w c d)) (hw : Acyclic w) :
    Acyclic (addChild w d c) := by
  push_neg at hguard
  obtain ⟨hcd, hanc⟩ := hguard
  intro x k hx
  by_cases hvisit : ∃ i, i < k + 1 ∧ parentIter (addChild w d c) i x = some c
  · obtain ⟨i, hi, hic⟩ := hvisit
    have hsplit : parentIter (addChild w d c) (k + 1) x =
        (parentIter (addChild w d c) i x).bind
          (fun y => parentIter (addChild w d c) ((k + 1) - i) y) := by
      rw [← parentIter_add]
      congr 1
      omega
    rw [hsplit, hic] at hx
    simp only [Option.some_bind] at hx
    have hcycle : parentIter (addChild w d c) (k + 1) c = some c := by
      have hsplit2 : parentIter (addChild w d c) (((k + 1) - i) + i) c =
          (parentIter (addChild w d c) ((k + 1) - i) c).bind
            (fun y => parentIter (addChild w d c) i y) :=
        parentIter_add (addChild w d c) ((k + 1) - i) i c
      rw [hx] at hsplit2
      simp only [Option.some_bind] at hsplit2
      have heq : ((k + 1) - i) + i = k + 1 := by omega
      rw [heq] at hsplit2
      exact hsplit2.trans hic
    have hpc : (addChild w d c).parent c = some d := by
      simp [addChild]
    have hkd : parentIter (addChild w d c) k d = some c := by
      have hstep : parentIter (addChild w d c) (k + 1) c =
          parentIter (addChild w d c) k d := by
        simp [parentIter, hpc]
      exact hstep.symm.trans hcycle
    haveI : DecidablePred (fun m => parentIter (addChild w d c) m d = some c) :=
      Classical.decPred _
    have hex : ∃ m, parentIter (addChild w d c) m d = some c := ⟨k, hkd⟩
    obtain ⟨m, hmc, hmin⟩ :
        ∃ m, parentIter (addChild w d c) m d = some c ∧
          ∀ j, j < m → parentIter (addChild w d c) j d ≠ some c :=
      ⟨Nat.find hex, Nat.find_spec hex, fun j hj => Nat.find_min hex hj⟩
    have hmw : parentIter w m d = some c :=
      (parentIter_addChild_of_avoid w d c m d hmin).symm.trans hmc
    cases m with
    | zero =>
      simp only [parentIter, Option.some.injEq] at hmw
      exact hcd hmw.symm
    | succ j => exact hanc ⟨j, hmw⟩
  · push_neg at hvisit
    have havoid := parentIter_addChild_of_avoid w d c (k + 1) x hvisit
    rw [havoid] at hx
    exact hw x k hx

/-- In a finite acyclic scene, every parent chain dies out within
`card α` steps: the recursion that walks the hierarchy is bounded. -/
theorem acyclic_parent_chain_bound {α : Type} [Fintype α] (w : World α)
    (hw : Acyclic w) (x : α) :
    ∃ k, k ≤ Fintype.card α ∧ parentIter w k x = none := by
  by_contra hcon
  push_neg at hcon
  have hsome : ∀ k : Nat, k ≤ Fintype.card α → (parentIter w k x).isSome := by
    intro k hk
    cases hp : parentIter w k x with
    | none => exact absurd hp (hcon k hk)
    | some y => rfl
  have key : ∀ (i j : Fin (Fintype.card α + 1)), (i : Nat) < (j : Nat) →
      ((parentIter w (i : Nat) x).get (hsome (i : Nat) (by omega)) =
       (parentIter w (j : Nat) x).get (hsome (j : Nat) (by omega))) → False := by
    intro i j hlt hfe
    have hi : parentIter w (i : Nat) x =
        some ((parentIter w (i : Nat) x).get (hsome (i : Nat) (by omega))) :=
      (Option.some_get _).symm
    have hj : parentIter w (j : Nat) x =
        some ((parentIter w (j : Nat) x).get (hsome (j : Nat) (by omega))) :=
      (Option.some_get _).symm
    have hsplit : parentIter w ((i : Nat) + ((j : Nat) - (i : Nat))) x =
        (parentIter w (i : Nat) x).bind
          (fun y => parentIter w ((j : Nat) - (i : Nat)) y) :=
      parentIter_add w (i : Nat) ((j : Nat) - (i : Nat)) x
    rw [show (i : Nat) + ((j : Nat) - (i : Nat)) = (j : Nat) by omega, hi] at hsplit
    simp only [Option.some_bind] at hsplit
    have hcyc : parentIter w ((j : Nat) - (i : Nat))
        ((parentIter w (i : Nat) x).get (hsome (i : Nat) (by omega))) =
        some ((parentIter w (i : Nat) x).get (hsome (i : Nat) (by omega))) := by
      rw [← hsplit, hj, hfe]
    have hpos : (j : Nat) - (i : Nat) = ((j : Nat) - (i : Nat) - 1) + 1 := by omega
    rw [hpos] at hcyc
    exact hw _ _ hcyc
  have hcard : Fintype.card α < Fintype.card (Fin (Fintype.card α + 1)) := by
    simp
  obtain ⟨i, j, hij, hfij⟩ := Fintype.exists_ne_map_eq_of_card_lt
    (fun i : Fin (Fintype.card α + 1) =>
      (parentIter w (i : Nat) x).get (hsome (i : Nat) (by omega))) hcard
  have hne : (i : Nat) ≠ (j : Nat) := fun h => hij (Fin.ext h)
  rcases lt_or_gt_of_ne hne with hlt | hgt
  · exact key i j hlt hfij
  · exact key j i hgt hfij.symm

/-- C7: with the ancestor guard, an attempt to add the receiver itself or
one of its ancestors as a child is rejected and leaves the scene
unchanged; the guarded `AddChild` preserves acyclicity of the parent/child
structure; and in the resulting finite scene every parent chain terminates
within `card α` steps, so the placement recursion never runs unboundedly. -/
theorem addChild_cycle_guard {α : Type} [DecidableEq α] [Fintype α]
    (w : World α) (d c : α) :
    ((c = d ∨ isAncestor w c d) → addChildGuarded w d c = w) ∧
    (Acyclic w → Acyclic (addChildGuarded w d c)) ∧
    (Acyclic w → ∀ x : α, ∃ k, k ≤ Fintype.card α ∧
      parentIter (addChildGuarded w d c) k x = none) := by
  have hrej : (c = d ∨ isAncestor w c d) → addChildGuarded w d c = w := by
    intro h
    simp only [addChildGuarded]
    rw [if_pos h]
  have hacyc : Acyclic w → Acyclic (addChildGuarded w d c) := by
    intro hw
    by_cases hg : c = d ∨ isAncestor w c d
    · rw [hrej hg]
      exact hw
    · have heq : addChildGuarded w d c = addChild w d c := by
        simp only [addChildGuarded]
        rw [if_neg hg]
      rw [heq]
      exact acyclic_addChild w d c hg hw
  exact ⟨hrej, hacyc,
    fun hw x => acyclic_parent_chain_bound (addChildGuarded w d c) (hacyc hw) x⟩

/-- A two-object scene with no links, for concrete checks. -/
def emptyWorld2 : World (Fin 2) :=
  { parent := fun _ => none, children := fun _ => [] }

/-- The empty two-object scene is acyclic. -/
theorem emptyWorld2_acyclic : Acyclic emptyWorld2 := by
  intro x k h
  simp [parentIter, emptyWorld2] at h

/-- Witness for C7: adding an object as its own child is rejected in the
concrete two-object scene, and after a guarded add every parent chain in
that scene dies out within two steps. -/
theorem addChild_cycle_guard_witness :
    addChildGuarded emptyWorld2 0 0 = emptyWorld2 ∧
    (∃ k, k ≤ Fintype.card (Fin 2) ∧
      parentIter (addChildGuarded emptyWorld2 1 0) k 1 = none) :=
  ⟨(addChild_cycle_guard emptyWorld2 0 0).1 (Or.inl rfl),
   (addChild_cycle_guard emptyWorld2 1 0).2.2 emptyWorld2_acyclic 1⟩
